import Mathlib

set_option autoImplicit false

namespace PaySplitter

/-! Shallow embedding of the ledger core of `src/app.py` (Pay-Splitter).
Python floats are modelled as exact rationals, Python dicts as association
lists in insertion order, and fallible operations return `Except`. -/

/-- Leap-year test of the proleptic Gregorian calendar, as used by
Python `datetime.date`. -/
def isLeap (y : ℤ) : Bool := y % 4 == 0 && (y % 100 != 0 || y % 400 == 0)

/-- Number of days in a month, as validated by `datetime.strptime`. -/
def daysInMonth (y m : ℤ) : ℤ :=
  if m = 2 then (if isLeap y then 29 else 28)
  else if m = 4 ∨ m = 6 ∨ m = 9 ∨ m = 11 then 30
  else 31

/-- Serial day number of a Gregorian date (days since 1970-01-01): the
quantity in which Python `date` subtraction reports its `.days`. -/
def dateOrd (y m d : ℤ) : ℤ :=
  let yr := if m ≤ 2 then y - 1 else y
  let era := (if 0 ≤ yr then yr else yr - 399) / 400
  let yoe := yr - era * 400
  let mp := (m + 9) % 12
  let doy := (153 * mp + 2) / 5 + d - 1
  let doe := yoe * 365 + yoe / 4 - yoe / 100 + doy
  era * 146097 + doe - 719468

/-- Day number of a parsed date triple. -/
def ordOf (t : ℤ × ℤ × ℤ) : ℤ := dateOrd t.1 t.2.1 t.2.2

/-- Split a character list at every dash. -/
def splitOnDash : List Char → List (List Char)
  | [] => [[]]
  | c :: t =>
    if c = '-' then [] :: splitOnDash t
    else
      match splitOnDash t with
      | [] => [[c]]
      | g :: gs => (c :: g) :: gs

/-- Read a non-empty all-digit field as a number. -/
def readNat (l : List Char) : Option ℕ :=
  if l ≠ [] ∧ l.all Char.isDigit then
    some (l.foldl (fun a c => 10 * a + (c.toNat - 48)) 0)
  else none

/-- Parse of an ISO `YYYY-MM-DD` string, modelling
`datetime.strptime(s, "%Y-%m-%d").date()`: split at the dashes, read the
three all-digit fields, and validate the calendar ranges; `none` models the
`ValueError` raised on malformed input. -/
def parseDate (s : String) : Option (ℤ × ℤ × ℤ) :=
  match splitOnDash s.toList with
  | [ys, ms, ds] =>
    match readNat ys, readNat ms, readNat ds with
    | some y, some m, some d =>
      if 1 ≤ m ∧ m ≤ 12 ∧ 1 ≤ d ∧ (d : ℤ) ≤ daysInMonth (y : ℤ) (m : ℤ) then
        some ((y : ℤ), (m : ℤ), (d : ℤ))
      else none
    | _, _, _ => none
  | _ => none

/-- Absolute value of a rational, the Python built-in `abs`. -/
def qAbs (q : ℚ) : ℚ := if q < 0 then -q else q

/-- Round to the nearest integer with ties to even: the semantics of the
Python built-in `round`. -/
def roundHE (x : ℚ) : ℤ :=
  let f := Rat.floor x
  if x - f < 1/2 then f
  else if (1 : ℚ)/2 < x - f then f + 1
  else if f % 2 = 0 then f else f + 1

/-- Python `round(bal, 2)`: round to two decimal places, ties to even. -/
def rnd2 (q : ℚ) : ℚ := (roundHE (q * 100) : ℚ) / 100

/-- Expense record: the attributes of the Python class `Exp`
(src/app.py lines 186-200). -/
structure Exp where
  id : String
  description : String
  amount : ℚ
  paid_by : String
  participants : List String
  date : String
  category : String
  deriving Repr, DecidableEq

/-- Possible runtime types of the `dt_obj` argument of `Exp.__init__`:
a `datetime.datetime`, a `datetime.date`, a string, or any other value. -/
inductive DtArg where
  | pydatetime (y m d hh mi ss : ℤ)
  | pydate (y m d : ℤ)
  | pystr (s : String)
  | pyother
  deriving Repr, DecidableEq

/-- Zero-pad the decimal form of a nonnegative integer to a given width,
as the `strftime` fields `%Y`, `%m` and `%d` do. -/
def padZ (w : ℕ) (n : ℤ) : String :=
  let s := toString n.toNat
  String.mk (List.replicate (w - s.length) '0') ++ s

/-- Result of `dt.strftime("%Y-%m-%d")` on a date or datetime value. -/
def fmtYMD (y m d : ℤ) : String := padZ 4 y ++ "-" ++ padZ 2 m ++ "-" ++ padZ 2 d

/-- Date-normalisation branch of `Exp.__init__` (src/app.py lines 195-200):
date-like values are formatted with `strftime`, strings pass through
unchanged, and any other type raises `TypeError`. -/
def normDate : DtArg → Except String String
  | .pydatetime y m d _ _ _ => .ok (fmtYMD y m d)
  | .pydate y m d => .ok (fmtYMD y m d)
  | .pystr s => .ok s
  | .pyother => .error "TypeError: Unsupported date type encountered!"

/-- Constructor `Exp.__init__` (src/app.py lines 187-200); `fid` stands for
the freshly drawn `uuid.uuid4()` string. A failing date normalisation
aborts construction and no expense value is produced. -/
def mkExp (fid desc : String) (amt : ℚ) (pd_by : String) (parts : List String)
    (dt : DtArg) (category : String) : Except String Exp :=
  match normDate dt with
  | .ok ds => .ok ⟨fid, desc, amt, pd_by, parts, ds, category⟩
  | .error e => .error e

/-- JSON object written by `Exp.to_dict` (src/app.py lines 202-211). -/
structure ExpD where
  id : String
  description : String
  amount : ℚ
  paid_by : String
  participants : List String
  date : String
  category : String
  deriving Repr, DecidableEq

/-- Method `Exp.to_dict` (src/app.py lines 202-211). -/
def Exp.to_dict (e : Exp) : ExpD :=
  ⟨e.id, e.description, e.amount, e.paid_by, e.participants, e.date, e.category⟩

/-- Classmethod `Exp.from_dict` (src/app.py lines 213-222): it rebuilds the
expense through the constructor, so a fresh id `fid` is drawn and the stored
`id` field of the dictionary is never read. -/
def Exp.from_dict (fid : String) (d : ExpD) : Except String Exp :=
  mkExp fid d.description d.amount d.paid_by d.participants (.pystr d.date) d.category

/-- Recurring-expense record: the attributes of the Python class
`RecurringExp` (src/app.py lines 225-234). -/
structure RecurringExp where
  id : String
  description : String
  amount : ℚ
  paid_by : String
  participants : List String
  category : String
  frequency : String
  last_generated : Option String
  deriving Repr, DecidableEq

/-- JSON object written by `RecurringExp.to_dict` (lines 236-246). -/
structure RecD where
  id : String
  description : String
  amount : ℚ
  paid_by : String
  participants : List String
  category : String
  frequency : String
  last_generated : Option String
  deriving Repr, DecidableEq

/-- Method `RecurringExp.to_dict` (src/app.py lines 236-246). -/
def RecurringExp.to_dict (r : RecurringExp) : RecD :=
  ⟨r.id, r.description, r.amount, r.paid_by, r.participants, r.category,
    r.frequency, r.last_generated⟩

/-- Classmethod `RecurringExp.from_dict` (src/app.py lines 248-259): the
constructor draws a fresh id `fid` and sets `last_generated` to `None`;
the stored `last_generated` is copied in afterwards, while the stored `id`
is never read. -/
def RecurringExp.from_dict (fid : String) (d : RecD) : RecurringExp :=
  ⟨fid, d.description, d.amount, d.paid_by, d.participants, d.category,
    d.frequency, d.last_generated⟩

/-- Aggregate session state: members, expenses and recurring definitions
(the Ledger Store). -/
structure Ledger where
  members : List String
  expenses : List Exp
  recurring_expenses : List RecurringExp
  deriving Repr, DecidableEq

/-- Parsed content of the backing JSON document. -/
structure SaveData where
  members : List String
  expenses : List ExpD
  recurring_expenses : List RecD
  deriving Repr, DecidableEq

/-- Session-state defaults installed at the top of src/app.py
(lines 162-167): the fixed starter member list and empty histories. -/
def defaultLedger : Ledger := ⟨["Alice", "Bob", "Charlie", "Tim"], [], []⟩

/-- Function `sv_dat` (src/app.py lines 261-269): the JSON document written
whole to `household_data.json`. -/
def sv_dat (L : Ledger) : SaveData :=
  ⟨L.members, L.expenses.map Exp.to_dict,
    L.recurring_expenses.map RecurringExp.to_dict⟩

/-- Observable states of the backing file when `ld_dat` runs: absent,
present but not readable as JSON, or a parsed document. -/
inductive FileState where
  | absent
  | malformed
  | good (data : SaveData)

/-- List comprehension of `ld_dat` rebuilding expenses (lines 276-278);
`fe i` is the i-th `uuid.uuid4()` draw, and an exception from
`Exp.from_dict` propagates. -/
def loadExps (fe : ℕ → String) : ℕ → List ExpD → Except String (List Exp)
  | _, [] => .ok []
  | i, d :: ds => do
    let e ← Exp.from_dict (fe i) d
    let rest ← loadExps fe (i + 1) ds
    .ok (e :: rest)

/-- List comprehension of `ld_dat` rebuilding recurring definitions
(lines 279-281); `fr i` is the i-th fresh id. -/
def loadRecs (fr : ℕ → String) : ℕ → List RecD → List RecurringExp
  | _, [] => []
  | i, d :: ds => RecurringExp.from_dict (fr i) d :: loadRecs fr (i + 1) ds

/-- Function `ld_dat` (src/app.py lines 271-289). On an absent file nothing
happens and the prior session state `st` stands (the defaults from start-up).
On a present but unreadable or malformed file, `json.load` raises
`json.decoder.JSONDecodeError`, which no handler in `ld_dat` catches;
the raised exception is modelled as `Except.error`. The trailing loop that
re-adds a missing `category` attribute is a no-op, because the constructor
always sets `category`. -/
def ld_dat (fe fr : ℕ → String) (file : FileState) (st : Ledger) :
    Except String Ledger :=
  match file with
  | .absent => .ok st
  | .malformed => .error "json.decoder.JSONDecodeError"
  | .good data => do
    let exps ← loadExps fe 0 data.expenses
    .ok ⟨data.members, exps, loadRecs fr 0 data.recurring_expenses⟩

/-- Value at the first occurrence of key `k`, modelling Python dict lookup. -/
def lookupQ : List (String × ℚ) → String → Option ℚ
  | [], _ => none
  | (a, v) :: t, k => if a = k then some v else lookupQ t k

/-- Key-membership test `k in bals` on a Python dict. -/
def hasKey (l : List (String × ℚ)) (k : String) : Bool := (lookupQ l k).isSome

/-- Total lookup used to state balance values; missing keys read as 0. -/
def lookupD (l : List (String × ℚ)) (k : String) : ℚ := (lookupQ l k).getD 0

/-- Update the value at the first occurrence of key `k`: the effect of
`bals[k] += x` or `bals[k] -= x` when `k` is a present key. -/
def updF : List (String × ℚ) → String → (ℚ → ℚ) → List (String × ℚ)
  | [], _, _ => []
  | (a, v) :: t, k, f => if a = k then (a, f v) :: t else (a, v) :: updF t k f

/-- Keys in first-insertion order without repeats, with `seen` the keys
already emitted. -/
def dedupFirstAux (seen : List String) : List String → List String
  | [] => []
  | a :: t =>
    if a ∈ seen then dedupFirstAux seen t
    else a :: dedupFirstAux (a :: seen) t

/-- Key sequence of the Python dict comprehension seeding `calc_bals`:
first-insertion order, duplicates collapsed. -/
def dedupFirst (l : List String) : List String := dedupFirstAux [] l

/-- Per-expense mutation step inside the loop of `calc_bals`
(src/app.py lines 294-304). -/
def calcStep (mems : List String) (bals : List (String × ℚ)) (e : Exp) :
    List (String × ℚ) :=
  let b1 := if hasKey bals e.paid_by then
      updF bals e.paid_by (fun v => v + e.amount)
    else bals
  let valid_parts := e.participants.filter (fun p => decide (p ∈ mems))
  let num_parts := valid_parts.length
  if 0 < num_parts then
    valid_parts.foldl (fun b p => updF b p (fun v => v - e.amount / (num_parts : ℚ))) b1
  else b1

/-- Function `calc_bals` (src/app.py lines 291-305). -/
def calc_bals (mems : List String) (exps : List Exp) : List (String × ℚ) :=
  exps.foldl (calcStep mems) ((dedupFirst mems).map (fun m => (m, (0 : ℚ))))

/-- First statement of `sug_setts` (src/app.py line 308): keep the members
whose RAW balance has absolute value above 0.01, rounding the kept values
to two decimal places. -/
def cleanBals : List (String × ℚ) → List (String × ℚ)
  | [] => []
  | (m, b) :: t =>
    if 1/100 < qAbs b then (m, rnd2 b) :: cleanBals t else cleanBals t

/-- Modelled from the claim wording, for a refinement comparison with
`cleanBals`: round every balance first, then drop members whose ROUNDED
absolute balance is at most 0.01. -/
def cleanBalsSpec (bals : List (String × ℚ)) : List (String × ℚ) :=
  (bals.map (fun p => (p.1, rnd2 p.2))).filter (fun p => decide (1/100 < qAbs p.2))

/-- Python `sorted(items, key=lambda item: item[1], reverse=True)`: a stable
descending sort on the value component (insertion sort with a non-strict
comparison is stable in the same way as Python's sort). -/
def sortDesc (l : List (String × ℚ)) : List (String × ℚ) :=
  List.insertionSort (fun p q => q.2 ≤ p.2) l

/-- Two-pointer settlement loop of `sug_setts` (src/app.py lines 318-336),
with the cursor advances written as list recursion: the two lists are the
suffixes from the cursors on, whose head entries carry the in-place updated
remaining amounts. The fuel argument only bounds the iteration count;
`sug_setts` passes enough fuel for the loop to run to completion. -/
def settleLoopF : ℕ → List (String × ℚ) → List (String × ℚ) →
    List (String × String × ℚ)
  | 0, _, _ => []
  | _ + 1, [], _ => []
  | _ + 1, _ :: _, [] => []
  | f + 1, (dn, d) :: ds, (cn, c) :: cs =>
    if d ≤ 1/100 then settleLoopF f ds ((cn, c) :: cs)
    else if c ≤ 1/100 then settleLoopF f ((dn, d) :: ds) cs
    else
      (dn, cn, min d c) ::
        settleLoopF f ((dn, d - min d c) :: ds) ((cn, c - min d c) :: cs)

/-- Termination measure of the settlement loop: every iteration strictly
decreases it, so it bounds the iterations still to run. -/
def settleMeas (ds cs : List (String × ℚ)) : ℕ :=
  2 * (ds.length + cs.length) +
    (match ds, cs with
     | (_, d) :: _, (_, c) :: _ => if 1/100 < d ∧ 1/100 < c then 1 else 0
     | _, _ => 0)

/-- Debtor dict of `sug_setts` (src/app.py line 310): members of the
cleaned mapping with negative balance, stored as positive magnitudes. -/
def debtorsOf (bals : List (String × ℚ)) : List (String × ℚ) :=
  ((cleanBals bals).filter (fun p => decide (p.2 < 0))).map (fun p => (p.1, qAbs p.2))

/-- Creditor dict of `sug_setts` (src/app.py line 311): members of the
cleaned mapping with positive balance. -/
def credsOf (bals : List (String × ℚ)) : List (String × ℚ) :=
  (cleanBals bals).filter (fun p => decide (0 < p.2))

/-- Function `sug_setts` (src/app.py lines 307-339): clean, partition,
sort both sides descending, run the two-pointer loop, and drop residual
settlements of at most 0.01. -/
def sug_setts (bals : List (String × ℚ)) : List (String × String × ℚ) :=
  let sorted_debtors := sortDesc (debtorsOf bals)
  let sorted_creds := sortDesc (credsOf bals)
  let setts := settleLoopF (2 * (sorted_debtors.length + sorted_creds.length) + 1)
    sorted_debtors sorted_creds
  setts.filter (fun s => decide (1/100 < s.2.2))

/-- Total amount the settlement list has person `n` paying. -/
def paySum (n : String) (setts : List (String × String × ℚ)) : ℚ :=
  ((setts.filter (fun s => decide (s.1 = n))).map (fun s => s.2.2)).sum

/-- Total amount the settlement list has person `n` receiving. -/
def recvSum (n : String) (setts : List (String × String × ℚ)) : ℚ :=
  ((setts.filter (fun s => decide (s.2.1 = n))).map (fun s => s.2.2)).sum

/-- Sum of the amounts an association list assigns to name `n`. -/
def amtOf (n : String) (l : List (String × ℚ)) : ℚ :=
  ((l.filter (fun p => decide (p.1 = n))).map (fun p => p.2)).sum

/-- Field comparison of the recurring duplicate check (src/app.py
lines 470-473): description, amount, paid_by and category must all agree;
frequency and participants are not consulted. -/
def matchesFields (r : RecurringExp) (e : Exp) : Bool :=
  decide (e.description = r.description) && decide (e.amount = r.amount) &&
    decide (e.paid_by = r.paid_by) && decide (e.category = r.category)

/-- One iteration of the duplicate scan (src/app.py lines 470-474). The
`strptime` calls run only when the four fields match, because the Python
conjunction short-circuits; a parse failure there is a raised `ValueError`,
modelled as `Except.error`. The date test is `(today - date).days < 30`. -/
def checkOne (today : String) (r : RecurringExp) (e : Exp) : Except String Bool :=
  if matchesFields r e then
    match parseDate today, parseDate e.date with
    | some t, some d => .ok (decide (ordOf t - ordOf d < 30))
    | _, _ => .error "ValueError: strptime"
  else .ok false

/-- Inner scan of the recurring generator (src/app.py lines 467-476)
deciding `already_generated_recently` for one definition, with early exit
on the first match. -/
def anyRecent (today : String) (r : RecurringExp) : List Exp → Except String Bool
  | [] => .ok false
  | e :: es => do
    let b ← checkOne today r e
    if b then .ok true else anyRecent today r es

/-- Expense list in which the id of the i-th entry has been replaced by the
fresh draw `fe (k + i)`, all other fields untouched: the shape in which
`ld_dat` restores a saved expense list. -/
def withIdsE (fe : ℕ → String) : ℕ → List Exp → List Exp
  | _, [] => []
  | k, e :: t => { e with id := fe k } :: withIdsE fe (k + 1) t

/-- Recurring-definition list with ids replaced by fresh draws, the shape in
which `ld_dat` restores a saved recurring list. -/
def withIdsR (fr : ℕ → String) : ℕ → List RecurringExp → List RecurringExp
  | _, [] => []
  | k, r :: t => { r with id := fr k } :: withIdsR fr (k + 1) t

/-- Formalisation of the claim's description of one member's share of one
expense: plus the full amount when the member is the payer, minus the
amount divided by the number of valid participants when the member is a
valid participant (the empty intersection debits nobody). -/
def contribOf (mems : List String) (m : String) (e : Exp) : ℚ :=
  (if e.paid_by = m then e.amount else 0) -
    (if m ∈ e.participants.filter (fun p => decide (p ∈ mems)) then
      e.amount / ((e.participants.filter (fun p => decide (p ∈ mems))).length : ℚ)
    else 0)

lemma qAbs_eq_abs (q : ℚ) : qAbs q = |q| := by
  rw [qAbs]
  split
  · exact (abs_of_neg (by assumption)).symm
  · exact (abs_of_nonneg (le_of_not_lt (by assumption))).symm

lemma ratFloor_eq_floor (q : ℚ) : (Rat.floor q : ℤ) = ⌊q⌋ := rfl

lemma loadExps_map_to_dict (fe : ℕ → String) (exps : List Exp) : ∀ k,
    loadExps fe k (exps.map Exp.to_dict) = .ok (withIdsE fe k exps) := by
  induction exps with
  | nil => intro k; rfl
  | cons e t ih =>
    intro k
    simp only [List.map_cons, loadExps, Exp.from_dict, Exp.to_dict, mkExp, normDate,
      ih (k + 1), withIdsE]
    rfl

lemma loadRecs_map_to_dict (fr : ℕ → String) (recs : List RecurringExp) : ∀ k,
    loadRecs fr k (recs.map RecurringExp.to_dict) = withIdsR fr k recs := by
  induction recs with
  | nil => intro k; rfl
  | cons r t ih =>
    intro k
    simp only [List.map_cons, loadRecs, RecurringExp.from_dict, RecurringExp.to_dict,
      ih (k + 1), withIdsR]

/-- C1 (counterexample): the persistence round-trip is NOT the identity.
Saving a ledger holding one expense with id `"orig-id"` and reloading it in
a run whose `uuid.uuid4()` draw is `"fresh-id"` yields a ledger differing
from the original, because `Exp.from_dict` never reads the stored id. -/
theorem C1_roundtrip_cex :
    ld_dat (fun _ => "fresh-id") (fun _ => "fresh-id")
      (.good (sv_dat ⟨["Alice"],
        [⟨"orig-id", "Lunch", 10, "Alice", ["Alice"], "2025-01-02", "Dining Out"⟩], []⟩))
      defaultLedger ≠
    .ok ⟨["Alice"],
      [⟨"orig-id", "Lunch", 10, "Alice", ["Alice"], "2025-01-02", "Dining Out"⟩], []⟩ := by
  intro h
  rw [show ld_dat (fun _ => "fresh-id") (fun _ => "fresh-id")
      (.good (sv_dat ⟨["Alice"],
        [⟨"orig-id", "Lunch", 10, "Alice", ["Alice"], "2025-01-02", "Dining Out"⟩], []⟩))
      defaultLedger =
      .ok ⟨["Alice"],
        [⟨"fresh-id", "Lunch", 10, "Alice", ["Alice"], "2025-01-02", "Dining Out"⟩], []⟩
    from rfl] at h
  exact absurd (Except.ok.inj h) (by decide)

/-- C1 (amended): saving any ledger and reloading it restores the members
exactly and every expense and recurring definition with the same
description, amount, paid_by, participants, date, category (and frequency
and last_generated), but with a freshly generated id in place of the saved
one. -/
theorem C1_roundtrip_amended (fe fr : ℕ → String) (L st : Ledger) :
    ld_dat fe fr (.good (sv_dat L)) st =
      .ok ⟨L.members, withIdsE fe 0 L.expenses, withIdsR fr 0 L.recurring_expenses⟩ := by
  simp only [ld_dat, sv_dat, loadExps_map_to_dict, loadRecs_map_to_dict]
  rfl

/-- C2: the claim that a malformed backing file degrades to the default
ledger with a warning is violated by the code: `ld_dat` wraps `json.load`
in no handler, so the decode fault propagates to the caller, while only the
file-absent case leaves the default session state standing. -/
theorem C2_malformed_fault_propagates :
    ld_dat (fun _ => "u0") (fun _ => "u1") .malformed defaultLedger =
      .error "json.decoder.JSONDecodeError" ∧
    ld_dat (fun _ => "u0") (fun _ => "u1") .absent defaultLedger =
      .ok defaultLedger := ⟨rfl, rfl⟩

/-- C8: the `Exp` constructor normalizes a date or datetime argument with
`strftime("%Y-%m-%d")`, passes a string argument through unchanged, and on
any other argument type fails with a `TypeError` producing no expense. -/
theorem C8_ctor_date_types (fid desc : String) (amt : ℚ) (pb : String)
    (parts : List String) (cat : String) :
    (∀ y m d, mkExp fid desc amt pb parts (.pydate y m d) cat =
      .ok ⟨fid, desc, amt, pb, parts, fmtYMD y m d, cat⟩) ∧
    (∀ y m d hh mi ss, mkExp fid desc amt pb parts (.pydatetime y m d hh mi ss) cat =
      .ok ⟨fid, desc, amt, pb, parts, fmtYMD y m d, cat⟩) ∧
    (∀ s, mkExp fid desc amt pb parts (.pystr s) cat =
      .ok ⟨fid, desc, amt, pb, parts, s, cat⟩) ∧
    mkExp fid desc amt pb parts .pyother cat =
      .error "TypeError: Unsupported date type encountered!" :=
  ⟨fun _ _ _ => rfl, fun _ _ _ _ _ _ => rfl, fun _ => rfl, rfl⟩

/-- C6 (counterexample): the first step of the settlement planner does NOT
decide membership by the rounded balance. A raw balance of 0.011 exceeds
0.01 and is kept (with rounded value 0.01), although its rounded absolute
value is not above 0.01, so the claimed round-first pipeline drops it. -/
theorem C6_first_step_cex :
    cleanBals [("a", 11/1000)] ≠ cleanBalsSpec [("a", 11/1000)] := by
  have h1 : cleanBals [("a", 11/1000)] = [("a", 1/100)] := by
    norm_num [cleanBals, qAbs, rnd2, roundHE, Rat.floor_def']
  have h2 : cleanBalsSpec [("a", 11/1000)] = [] := by
    norm_num [cleanBalsSpec, qAbs, rnd2, roundHE, Rat.floor_def']
  simp [h1, h2]

lemma cleanBals_eq (bals : List (String × ℚ)) :
    cleanBals bals =
      (bals.filter (fun p => decide (1/100 < qAbs p.2))).map (fun p => (p.1, rnd2 p.2)) := by
  induction bals with
  | nil => rfl
  | cons p t ih =>
    obtain ⟨m, b⟩ := p
    by_cases h : 1/100 < qAbs b
    · rw [show cleanBals ((m, b) :: t) = (m, rnd2 b) :: cleanBals t from by
          simp only [cleanBals, if_pos h],
        List.filter_cons_of_pos (by simpa using h), List.map_cons, ih]
    · rw [show cleanBals ((m, b) :: t) = cleanBals t from by
          simp only [cleanBals, if_neg h],
        List.filter_cons_of_neg (by simpa using h), ih]

/-- C6 (amended): the planner's first step keeps exactly the members whose
UNROUNDED absolute balance exceeds 0.01 and maps each kept member to its
balance rounded to two decimal places. -/
theorem C6_first_step_amended (bals : List (String × ℚ)) :
    cleanBals bals =
      (bals.filter (fun p => decide (1/100 < qAbs p.2))).map (fun p => (p.1, rnd2 p.2)) :=
  cleanBals_eq bals

lemma except_bind_ok {a b : Type} (x : a) (f : a → Except String b) :
    (Except.ok x >>= f : Except String b) = f x := rfl

/-- C5 (counterexample): the 30-day boundary of the recurring duplicate
check is EXCLUSIVE, not inclusive. An existing expense agreeing with the
definition on description, amount, paid_by and category and dated exactly
30 days before today is not treated as recently generated: the scan
returns false, so the generator would materialize the definition again. -/
theorem C5_thirty_day_boundary_cex :
    anyRecent "2025-10-12"
        ⟨"rid", "Rent", 100, "Alice", ["Alice"], "Rent", "Monthly", none⟩
        [⟨"eid", "Rent", 100, "Alice", ["Alice"], "2025-09-12", "Rent"⟩] = .ok false ∧
    matchesFields ⟨"rid", "Rent", 100, "Alice", ["Alice"], "Rent", "Monthly", none⟩
        ⟨"eid", "Rent", 100, "Alice", ["Alice"], "2025-09-12", "Rent"⟩ = true ∧
    parseDate "2025-10-12" = some (2025, 10, 12) ∧
    parseDate "2025-09-12" = some (2025, 9, 12) ∧
    ordOf (2025, 10, 12) - ordOf (2025, 9, 12) = 30 := by
  have h1 : parseDate "2025-10-12" = some (2025, 10, 12) := by decide
  have h2 : parseDate "2025-09-12" = some (2025, 9, 12) := by decide
  have h3 : matchesFields ⟨"rid", "Rent", 100, "Alice", ["Alice"], "Rent", "Monthly", none⟩
      ⟨"eid", "Rent", 100, "Alice", ["Alice"], "2025-09-12", "Rent"⟩ = true := by
    norm_num [matchesFields]
  have h4 : ¬ (ordOf (2025, 10, 12) - ordOf (2025, 9, 12) < 30) := by decide
  refine ⟨?_, h3, h1, h2, by decide⟩
  simp [anyRecent, checkOne, h1, h2, h3, h4, except_bind_ok]

/-- C5 (amended): for every recurring definition and expense list whose
field-matching expenses carry parseable dates, the duplicate scan reports
true exactly when some existing expense matches the definition on
description, amount, paid_by and category and is dated STRICTLY less than
30 days before today (future dates also count); the boundary is exclusive,
and the frequency field plays no role. -/
theorem C5_recent_dup_iff (today : String) (r : RecurringExp) (exps : List Exp)
    (t : ℤ × ℤ × ℤ) (ht : parseDate today = some t)
    (hp : ∀ e ∈ exps, matchesFields r e = true → (parseDate e.date).isSome) :
    (anyRecent today r exps = .ok true ↔
      ∃ e ∈ exps, matchesFields r e = true ∧
        ∃ d, parseDate e.date = some d ∧ ordOf t - ordOf d < 30) := by
  induction exps with
  | nil => simp [anyRecent]
  | cons e es ih =>
    have hp' : ∀ x ∈ es, matchesFields r x = true → (parseDate x.date).isSome :=
      fun x hx => hp x (List.mem_cons_of_mem _ hx)
    by_cases hm : matchesFields r e = true
    · obtain ⟨d, hd⟩ := Option.isSome_iff_exists.mp (hp e (List.mem_cons_self _ _) hm)
      by_cases hlt : ordOf t - ordOf d < 30
      · simp only [anyRecent, checkOne, hm, if_pos, ht, hd, hlt, decide_eq_true_eq,
          except_bind_ok, if_true, decide_True]
        constructor
        · intro _; exact ⟨e, List.mem_cons_self _ _, hm, d, hd, hlt⟩
        · intro _; trivial
      · simp only [anyRecent, checkOne, hm, if_pos, ht, hd, except_bind_ok]
        rw [if_neg (by simpa using hlt)]
        rw [ih hp']
        constructor
        · rintro ⟨x, hx, hmx, dx, hdx, hltx⟩
          exact ⟨x, List.mem_cons_of_mem _ hx, hmx, dx, hdx, hltx⟩
        · rintro ⟨x, hx, hmx, dx, hdx, hltx⟩
          rcases List.mem_cons.mp hx with hx0 | hx1
          · subst hx0
            rw [hd] at hdx
            cases hdx
            exact absurd hltx hlt
          · exact ⟨x, hx1, hmx, dx, hdx, hltx⟩
    · simp only [anyRecent, checkOne, hm, if_neg, Bool.false_eq_true, except_bind_ok,
        if_false]
      rw [ih hp']
      constructor
      · rintro ⟨x, hx, hmx, dx, hdx, hltx⟩
        exact ⟨x, List.mem_cons_of_mem _ hx, hmx, dx, hdx, hltx⟩
      · rintro ⟨x, hx, hmx, dx, hdx, hltx⟩
        rcases List.mem_cons.mp hx with hx0 | hx1
        · subst hx0; exact absurd hmx hm
        · exact ⟨x, hx1, hmx, dx, hdx, hltx⟩

/-- C5 (witness): instantiation of the duplicate-scan characterisation at a
concrete ledger: an expense dated 29 days before today makes the scan
report true. -/
theorem C5_recent_dup_iff_witness :
    anyRecent "2025-10-12"
        ⟨"rid", "Rent", 100, "Alice", ["Alice"], "Rent", "Monthly", none⟩
        [⟨"eid", "Rent", 100, "Alice", ["Alice"], "2025-09-13", "Rent"⟩] = .ok true := by
  have h := C5_recent_dup_iff "2025-10-12"
    ⟨"rid", "Rent", 100, "Alice", ["Alice"], "Rent", "Monthly", none⟩
    [⟨"eid", "Rent", 100, "Alice", ["Alice"], "2025-09-13", "Rent"⟩]
    (2025, 10, 12) (by decide)
    (by intro e he _; rw [List.mem_singleton.mp he]; decide)
  rw [h]
  refine ⟨⟨"eid", "Rent", 100, "Alice", ["Alice"], "2025-09-13", "Rent"⟩,
    List.mem_singleton.mpr rfl, by norm_num [matchesFields], (2025, 9, 13), by decide, by decide⟩

lemma updF_keys (l : List (String × ℚ)) (k : String) (f : ℚ → ℚ) :
    (updF l k f).map Prod.fst = l.map Prod.fst := by
  induction l with
  | nil => rfl
  | cons p t ih =>
    obtain ⟨a, v⟩ := p
    by_cases h : a = k
    · simp [updF, h]
    · simp [updF, h, ih]

lemma foldl_updF_keys (g : String → ℚ → ℚ) (vp : List String) :
    ∀ bals : List (String × ℚ),
      ((vp.foldl (fun b p => updF b p (g p)) bals).map Prod.fst) = bals.map Prod.fst := by
  induction vp with
  | nil => intro bals; rfl
  | cons p t ih => intro bals; rw [List.foldl_cons, ih, updF_keys]

lemma hasKey_iff_mem (l : List (String × ℚ)) (k : String) :
    hasKey l k = true ↔ k ∈ l.map Prod.fst := by
  induction l with
  | nil => simp [hasKey, lookupQ]
  | cons p t ih =>
    obtain ⟨a, v⟩ := p
    by_cases h : a = k
    · simp [hasKey, lookupQ, h]
    · simpa [hasKey, lookupQ, h, Ne.symm h] using ih

lemma calcStep_keys (mems : List String) (bals : List (String × ℚ)) (e : Exp) :
    (calcStep mems bals e).map Prod.fst = bals.map Prod.fst := by
  rw [calcStep]
  split
  · rw [foldl_updF_keys (fun _ v => v - e.amount /
      ((e.participants.filter (fun p => decide (p ∈ mems))).length : ℚ))]
    split
    · rw [updF_keys]
    · rfl
  · split
    · rw [updF_keys]
    · rfl

lemma calc_bals_keys (mems : List String) (exps : List Exp) :
    (calc_bals mems exps).map Prod.fst = dedupFirst mems := by
  rw [calc_bals]
  have h : ∀ bals : List (String × ℚ),
      ((exps.foldl (calcStep mems) bals).map Prod.fst) = bals.map Prod.fst := by
    induction exps with
    | nil => intro bals; rfl
    | cons e t ih => intro bals; rw [List.foldl_cons, ih, calcStep_keys]
  rw [h]
  induction dedupFirst mems with
  | nil => rfl
  | cons a t ih => simp [ih]

lemma mem_dedupFirstAux (l : List String) :
    ∀ seen m, m ∈ dedupFirstAux seen l ↔ m ∈ l ∧ m ∉ seen := by
  induction l with
  | nil => intro seen m; simp [dedupFirstAux]
  | cons a t ih =>
    intro seen m
    by_cases h : a ∈ seen
    · rw [dedupFirstAux, if_pos h, ih]
      constructor
      · rintro ⟨h1, h2⟩; exact ⟨List.mem_cons_of_mem _ h1, h2⟩
      · rintro ⟨h1, h2⟩
        rcases List.mem_cons.mp h1 with rfl | h1
        · exact absurd h h2
        · exact ⟨h1, h2⟩
    · rw [dedupFirstAux, if_neg h]
      constructor
      · intro hm
        rcases List.mem_cons.mp hm with rfl | hm
        · exact ⟨List.mem_cons_self _ _, h⟩
        · rw [ih] at hm
          refine ⟨List.mem_cons_of_mem _ hm.1, fun hs => hm.2 (List.mem_cons_of_mem _ hs)⟩
      · rintro ⟨h1, h2⟩
        rcases List.mem_cons.mp h1 with rfl | h1
        · exact List.mem_cons_self _ _
        · by_cases hma : m = a
          · subst hma; exact List.mem_cons_self _ _
          · refine List.mem_cons_of_mem _ ((ih _ m).mpr ⟨h1, ?_⟩)
            intro hs
            rcases List.mem_cons.mp hs with h' | h'
            · exact hma h'
            · exact h2 h'

lemma mem_dedupFirst (l : List String) (m : String) : m ∈ dedupFirst l ↔ m ∈ l := by
  rw [dedupFirst, mem_dedupFirstAux]
  simp

lemma lookupQ_updF_self (l : List (String × ℚ)) (k : String) (f : ℚ → ℚ) :
    lookupQ (updF l k f) k = (lookupQ l k).map f := by
  induction l with
  | nil => rfl
  | cons p t ih =>
    obtain ⟨a, v⟩ := p
    by_cases h : a = k
    · simp [updF, lookupQ, h]
    · simp [updF, lookupQ, h, ih]

lemma lookupQ_updF_ne (l : List (String × ℚ)) (k : String) (f : ℚ → ℚ)
    (m : String) (h : m ≠ k) : lookupQ (updF l k f) m = lookupQ l m := by
  induction l with
  | nil => rfl
  | cons p t ih =>
    obtain ⟨a, v⟩ := p
    by_cases ha : a = k
    · subst ha
      simp [updF, lookupQ, Ne.symm h]
    · by_cases ham : a = m
      · subst ham; simp [updF, lookupQ, ha, h]
      · simp [updF, lookupQ, ha, ham, ih]

lemma lookupQ_foldl_updF (g : ℚ → ℚ) (vp : List String) (m : String)
    (hvp : vp.Nodup) :
    ∀ bals : List (String × ℚ),
      lookupQ (vp.foldl (fun b p => updF b p g) bals) m =
        if m ∈ vp then (lookupQ bals m).map g else lookupQ bals m := by
  induction vp with
  | nil => intro bals; simp
  | cons p t ih =>
    intro bals
    rw [List.foldl_cons]
    by_cases hmp : m = p
    · subst hmp
      have hmt : m ∉ t := (List.nodup_cons.mp hvp).1
      rw [ih (List.nodup_cons.mp hvp).2, if_neg hmt, if_pos (List.mem_cons_self _ _),
        lookupQ_updF_self]
    · rw [ih (List.nodup_cons.mp hvp).2, lookupQ_updF_ne _ _ _ _ hmp]
      by_cases hmt : m ∈ t
      · rw [if_pos hmt, if_pos (List.mem_cons_of_mem _ hmt)]
      · rw [if_neg hmt, if_neg (by simp [hmp, hmt])]

lemma lookupQ_foldl_updF_notmem (g : ℚ → ℚ) (vp : List String) (m : String)
    (h : m ∉ vp) :
    ∀ bals : List (String × ℚ),
      lookupQ (vp.foldl (fun b p => updF b p g) bals) m = lookupQ bals m := by
  induction vp with
  | nil => intro bals; rfl
  | cons p t ih =>
    intro bals
    rw [List.foldl_cons, ih (fun ht => h (List.mem_cons_of_mem _ ht)),
      lookupQ_updF_ne _ _ _ _ (by intro hp; subst hp; exact h (List.mem_cons_self _ _))]

lemma lookupQ_map_zero (ks : List String) (m : String) :
    lookupQ (ks.map (fun x => (x, (0 : ℚ)))) m = if m ∈ ks then some 0 else none := by
  induction ks with
  | nil => simp [lookupQ]
  | cons a t ih =>
    by_cases h : a = m
    · subst h; simp [lookupQ]
    · simp [lookupQ, h, ih, Ne.symm h]

lemma calcStep_lookup (mems : List String) (bals : List (String × ℚ)) (e : Exp)
    (m : String) (v : ℚ)
    (hkeys : ∀ n, hasKey bals n = true ↔ n ∈ mems)
    (hm : m ∈ mems)
    (hnd : e.participants.Nodup)
    (hv : lookupQ bals m = some v) :
    lookupQ (calcStep mems bals e) m = some (v + contribOf mems m e) := by
  have hvpnd : (e.participants.filter (fun p => decide (p ∈ mems))).Nodup :=
    hnd.filter _
  have hb1 : lookupQ (if hasKey bals e.paid_by then
      updF bals e.paid_by (fun w => w + e.amount) else bals) m =
      some (v + (if e.paid_by = m then e.amount else 0)) := by
    by_cases hpm : e.paid_by = m
    · subst hpm
      rw [if_pos ((hkeys e.paid_by).mpr hm), lookupQ_updF_self, hv, if_pos rfl]
      rfl
    · have hmne : m ≠ e.paid_by := fun h => hpm h.symm
      by_cases hpk : hasKey bals e.paid_by = true
      · rw [if_pos hpk, lookupQ_updF_ne _ _ _ _ hmne, hv, if_neg hpm, add_zero]
      · rw [if_neg hpk, hv, if_neg hpm, add_zero]
  simp only [calcStep]
  by_cases hlen : 0 < (e.participants.filter (fun p => decide (p ∈ mems))).length
  · rw [if_pos hlen, lookupQ_foldl_updF _ _ _ hvpnd, hb1]
    by_cases hmvp : m ∈ e.participants.filter (fun p => decide (p ∈ mems))
    · rw [if_pos hmvp]
      simp only [Option.map_some']
      rw [contribOf, if_pos hmvp]
      congr 1
      ring
    · rw [if_neg hmvp, contribOf, if_neg hmvp, sub_zero]
  · rw [if_neg hlen, hb1, contribOf]
    have hfil : ¬ m ∈ e.participants.filter (fun p => decide (p ∈ mems)) := by
      intro hmem
      exact hlen (List.length_pos.mpr (List.ne_nil_of_mem hmem))
    rw [if_neg hfil, sub_zero]

lemma calcStep_hkeys (mems : List String) (bals : List (String × ℚ)) (e : Exp)
    (hkeys : ∀ n, hasKey bals n = true ↔ n ∈ mems) :
    ∀ n, hasKey (calcStep mems bals e) n = true ↔ n ∈ mems := by
  intro n
  rw [hasKey_iff_mem, calcStep_keys, ← hasKey_iff_mem]
  exact hkeys n

lemma calc_bals_go (mems : List String) (m : String) (hm : m ∈ mems)
    (exps : List Exp) (hnd : ∀ e ∈ exps, e.participants.Nodup) :
    ∀ (bals : List (String × ℚ)) (v : ℚ),
      (∀ n, hasKey bals n = true ↔ n ∈ mems) →
      lookupQ bals m = some v →
      lookupQ (exps.foldl (calcStep mems) bals) m =
        some (v + (exps.map (contribOf mems m)).sum) := by
  induction exps with
  | nil => intro bals v _ hv; simpa using hv
  | cons e t ih =>
    intro bals v hkeys hv
    rw [List.foldl_cons]
    have hstep := calcStep_lookup mems bals e m v hkeys hm
      (hnd e (List.mem_cons_self _ _)) hv
    rw [ih (fun x hx => hnd x (List.mem_cons_of_mem _ hx)) _ _
      (calcStep_hkeys mems bals e hkeys) hstep]
    rw [List.map_cons, List.sum_cons]
    congr 1
    ring

lemma calc_bals_init_keys (mems : List String) :
    ∀ n, hasKey ((dedupFirst mems).map (fun x => (x, (0 : ℚ)))) n = true ↔ n ∈ mems := by
  intro n
  rw [hasKey_iff_mem]
  have hfst : ((dedupFirst mems).map (fun x => (x, (0 : ℚ)))).map Prod.fst =
      dedupFirst mems := by
    induction dedupFirst mems with
    | nil => rfl
    | cons a t ih => simp [ih]
  rw [hfst]
  exact mem_dedupFirst mems n

/-- C4: for every member list and expense list (participant sets have no
repeats, as the UI multiselect guarantees), the balance of each current
member decomposes as the sum over the expenses of: plus the full amount
when the member is the payer, minus the amount divided by the number of
valid participants (participants still in the member list) when the member
is one of them; an expense whose valid-participant set is empty only
credits its payer and debits nobody. -/
theorem C4_balance_formula (mems : List String) (exps : List Exp) (m : String)
    (hm : m ∈ mems) (hnd : ∀ e ∈ exps, e.participants.Nodup) :
    lookupD (calc_bals mems exps) m = (exps.map (contribOf mems m)).sum := by
  rw [calc_bals, lookupD, calc_bals_go mems m hm exps hnd _ 0
    (calc_bals_init_keys mems)
    (by rw [lookupQ_map_zero, if_pos ((mem_dedupFirst mems m).mpr hm)])]
  simp

/-- C4 (witness): the decomposition instantiated at the spec's concrete
scenario, a 90-unit expense paid by A and split among A, B and C. -/
theorem C4_balance_formula_witness :
    "A" ∈ ["A", "B", "C"] ∧
    lookupD (calc_bals ["A", "B", "C"]
        [⟨"i", "Dinner", 90, "A", ["A", "B", "C"], "2025-01-01", "Misc"⟩]) "A" =
      ([⟨"i", "Dinner", 90, "A", ["A", "B", "C"], "2025-01-01", "Misc"⟩].map
        (contribOf ["A", "B", "C"] "A")).sum :=
  ⟨by decide, C4_balance_formula ["A", "B", "C"] _ "A" (by decide)
    (by intro e he; rw [List.mem_singleton.mp he]; decide)⟩

lemma calcStep_lookup_uninvolved (mems : List String) (bals : List (String × ℚ))
    (e : Exp) (m : String) (hpb : e.paid_by ≠ m) (hpp : m ∉ e.participants) :
    lookupQ (calcStep mems bals e) m = lookupQ bals m := by
  have hmne : m ≠ e.paid_by := fun h => hpb h.symm
  have hnvp : m ∉ e.participants.filter (fun p => decide (p ∈ mems)) :=
    fun hmem => hpp (List.mem_of_mem_filter hmem)
  have hb1 : lookupQ (if hasKey bals e.paid_by then
      updF bals e.paid_by (fun w => w + e.amount) else bals) m = lookupQ bals m := by
    by_cases hpk : hasKey bals e.paid_by = true
    · rw [if_pos hpk, lookupQ_updF_ne _ _ _ _ hmne]
    · rw [if_neg hpk]
  simp only [calcStep]
  by_cases hlen : 0 < (e.participants.filter (fun p => decide (p ∈ mems))).length
  · rw [if_pos hlen, lookupQ_foldl_updF_notmem _ _ _ hnvp, hb1]
  · rw [if_neg hlen, hb1]

/-- C9: the key set of the balance mapping is exactly the current member
list: every current member appears as a key and no other name ever does,
whatever names the expenses mention; a member who paid no expense and sits
in no participant list keeps balance 0.0. -/
theorem C9_key_set (mems : List String) (exps : List Exp) :
    (∀ n, n ∈ (calc_bals mems exps).map Prod.fst ↔ n ∈ mems) ∧
    (∀ m, m ∈ mems → (∀ e ∈ exps, e.paid_by ≠ m ∧ m ∉ e.participants) →
      lookupD (calc_bals mems exps) m = 0) := by
  constructor
  · intro n
    rw [calc_bals_keys]
    exact mem_dedupFirst mems n
  · intro m hm hun
    have hgo : ∀ (l : List Exp), (∀ e ∈ l, e.paid_by ≠ m ∧ m ∉ e.participants) →
        ∀ bals : List (String × ℚ),
          lookupQ (l.foldl (calcStep mems) bals) m = lookupQ bals m := by
      intro l
      induction l with
      | nil => intro _ bals; rfl
      | cons e t ih =>
        intro hl bals
        rw [List.foldl_cons,
          ih (fun x hx => hl x (List.mem_cons_of_mem _ hx)) _,
          calcStep_lookup_uninvolved mems bals e m
            (hl e (List.mem_cons_self _ _)).1 (hl e (List.mem_cons_self _ _)).2]
    rw [calc_bals, lookupD, hgo exps hun, lookupQ_map_zero,
      if_pos ((mem_dedupFirst mems m).mpr hm)]
    rfl

/-- C9 (witness): instantiation at a two-member ledger whose single expense
involves only member a, so member b keeps key membership and balance 0. -/
theorem C9_key_set_witness :
    ("b" ∈ (calc_bals ["a", "b"]
        [⟨"i", "Solo", 7, "a", ["a"], "2025-01-01", "Misc"⟩]).map Prod.fst ↔
      "b" ∈ ["a", "b"]) ∧
    lookupD (calc_bals ["a", "b"]
      [⟨"i", "Solo", 7, "a", ["a"], "2025-01-01", "Misc"⟩]) "b" = 0 :=
  ⟨(C9_key_set ["a", "b"] [⟨"i", "Solo", 7, "a", ["a"], "2025-01-01", "Misc"⟩]).1 "b",
    (C9_key_set ["a", "b"] [⟨"i", "Solo", 7, "a", ["a"], "2025-01-01", "Misc"⟩]).2 "b"
      (by decide) (by intro e he; rw [List.mem_singleton.mp he]; exact ⟨by decide, by decide⟩)⟩

lemma valsSum_updF (l : List (String × ℚ)) (k : String) (f : ℚ → ℚ) :
    ∀ v, lookupQ l k = some v →
      ((updF l k f).map Prod.snd).sum = (l.map Prod.snd).sum - v + f v := by
  induction l with
  | nil => intro v hv; cases hv
  | cons p t ih =>
    intro v hv
    obtain ⟨a, w⟩ := p
    by_cases h : a = k
    · rw [lookupQ, if_pos h] at hv
      cases hv
      rw [updF, if_pos h]
      simp only [List.map_cons, List.sum_cons]
      ring
    · rw [lookupQ, if_neg h] at hv
      rw [updF, if_neg h]
      simp only [List.map_cons, List.sum_cons, ih v hv]
      ring

lemma valsSum_foldl_sub (amt : ℚ) (vp : List String) :
    ∀ bals : List (String × ℚ), (∀ p ∈ vp, hasKey bals p = true) →
      (((vp.foldl (fun b p => updF b p (fun w => w - amt)) bals).map Prod.snd).sum)
        = (bals.map Prod.snd).sum - (vp.length : ℚ) * amt := by
  induction vp with
  | nil => intro bals _; simp
  | cons p t ih =>
    intro bals hk
    obtain ⟨v, hv⟩ := Option.isSome_iff_exists.mp (hk p (List.mem_cons_self _ _))
    rw [List.foldl_cons]
    have hk' : ∀ q ∈ t, hasKey (updF bals p (fun w => w - amt)) q = true := by
      intro q hq
      rw [hasKey_iff_mem, updF_keys, ← hasKey_iff_mem]
      exact hk q (List.mem_cons_of_mem _ hq)
    rw [ih _ hk', valsSum_updF bals p _ v hv, List.length_cons]
    push_cast
    ring

lemma calcStep_valsSum (mems : List String) (bals : List (String × ℚ)) (e : Exp)
    (hkeys : ∀ n, hasKey bals n = true ↔ n ∈ mems)
    (hpb : e.paid_by ∈ mems)
    (hpart : ∀ p ∈ e.participants, p ∈ mems)
    (hne : e.participants ≠ []) :
    ((calcStep mems bals e).map Prod.snd).sum = (bals.map Prod.snd).sum := by
  have hvp : e.participants.filter (fun p => decide (p ∈ mems)) = e.participants :=
    List.filter_eq_self.mpr (fun p hp => by simpa using hpart p hp)
  have hlen : 0 < (e.participants.filter (fun p => decide (p ∈ mems))).length := by
    rw [hvp]
    exact List.length_pos.mpr hne
  have hkpb : hasKey bals e.paid_by = true := (hkeys e.paid_by).mpr hpb
  obtain ⟨v, hv⟩ := Option.isSome_iff_exists.mp hkpb
  have hb1sum : (((if hasKey bals e.paid_by then
      updF bals e.paid_by (fun w => w + e.amount) else bals)).map Prod.snd).sum =
      (bals.map Prod.snd).sum + e.amount := by
    rw [if_pos hkpb, valsSum_updF bals e.paid_by _ v hv]
    ring
  have hkb1 : ∀ p ∈ e.participants.filter (fun p => decide (p ∈ mems)),
      hasKey (if hasKey bals e.paid_by then
        updF bals e.paid_by (fun w => w + e.amount) else bals) p = true := by
    intro p hp
    rw [if_pos hkpb, hasKey_iff_mem, updF_keys, ← hasKey_iff_mem]
    exact (hkeys p).mpr (hpart p (List.mem_of_mem_filter hp))
  simp only [calcStep]
  rw [if_pos hlen, valsSum_foldl_sub _ _ _ hkb1, hb1sum]
  have hlz : ((e.participants.filter (fun p => decide (p ∈ mems))).length : ℚ) ≠ 0 :=
    Nat.cast_ne_zero.mpr (Nat.pos_iff_ne_zero.mp hlen)
  field_simp

/-- C7 (counterexample): as literally stated the claim fails, because an
expense whose participant list is empty vacuously satisfies the hypothesis
that every participant is a current member, yet contributes its full amount
to the sum of balances: with members a and one such 5-unit expense paid by
a, the balances sum to 5, far above 1e-6. -/
theorem C7_sum_zero_cex :
    calc_bals ["a"] [⟨"i", "Solo", 5, "a", [], "2025-01-01", "Misc"⟩] = [("a", 5)] ∧
    ¬ qAbs ((calc_bals ["a"]
        [⟨"i", "Solo", 5, "a", [], "2025-01-01", "Misc"⟩]).map Prod.snd).sum
      ≤ 1/1000000 := by
  have h : calc_bals ["a"] [⟨"i", "Solo", 5, "a", [], "2025-01-01", "Misc"⟩]
      = [("a", 5)] := by
    norm_num [calc_bals, calcStep, dedupFirst, dedupFirstAux, hasKey, lookupQ, updF]
  refine ⟨h, ?_⟩
  rw [h]
  norm_num [qAbs]

/-- C7 (amended): whenever every expense's payer and every participant are
current members AND every participant list is non-empty, the balances
returned by the calculator sum to exactly zero (in particular within the
claimed 1e-6 tolerance); exactness holds because the embedding computes in
exact rationals. -/
theorem C7_sum_zero (mems : List String) (exps : List Exp)
    (h : ∀ e ∈ exps, e.paid_by ∈ mems ∧ (∀ p ∈ e.participants, p ∈ mems) ∧
      e.participants ≠ []) :
    ((calc_bals mems exps).map Prod.snd).sum = 0 := by
  rw [calc_bals]
  have hgo : ∀ (l : List Exp), (∀ e ∈ l, e.paid_by ∈ mems ∧
      (∀ p ∈ e.participants, p ∈ mems) ∧ e.participants ≠ []) →
      ∀ bals : List (String × ℚ), (∀ n, hasKey bals n = true ↔ n ∈ mems) →
      ((l.foldl (calcStep mems) bals).map Prod.snd).sum = (bals.map Prod.snd).sum := by
    intro l
    induction l with
    | nil => intro _ bals _; rfl
    | cons e t ih =>
      intro hl bals hkeys
      rw [List.foldl_cons,
        ih (fun x hx => hl x (List.mem_cons_of_mem _ hx)) _
          (calcStep_hkeys mems bals e hkeys),
        calcStep_valsSum mems bals e hkeys (hl e (List.mem_cons_self _ _)).1
          (hl e (List.mem_cons_self _ _)).2.1 (hl e (List.mem_cons_self _ _)).2.2]
  rw [hgo exps h _ (calc_bals_init_keys mems)]
  induction dedupFirst mems with
  | nil => rfl
  | cons a t ih => simpa using ih

/-- C7 (witness): the amended sum-to-zero statement instantiated at two
members sharing one 10-unit expense. -/
theorem C7_sum_zero_witness :
    ((calc_bals ["A", "B"]
      [⟨"i", "Taxi", 10, "A", ["A", "B"], "2025-01-01", "Misc"⟩]).map Prod.snd).sum = 0 :=
  C7_sum_zero ["A", "B"] [⟨"i", "Taxi", 10, "A", ["A", "B"], "2025-01-01", "Misc"⟩]
    (by intro e he; rw [List.mem_singleton.mp he]
        exact ⟨by decide, by intro p hp; simpa using hp, by decide⟩)

lemma amtOf_cons (n : String) (p : String × ℚ) (l : List (String × ℚ)) :
    amtOf n (p :: l) = (if p.1 = n then p.2 else 0) + amtOf n l := by
  by_cases h : p.1 = n <;> simp [amtOf, List.filter_cons, h]

lemma paySum_cons (n : String) (s : String × String × ℚ)
    (l : List (String × String × ℚ)) :
    paySum n (s :: l) = (if s.1 = n then s.2.2 else 0) + paySum n l := by
  by_cases h : s.1 = n <;> simp [paySum, List.filter_cons, h]

lemma recvSum_cons (n : String) (s : String × String × ℚ)
    (l : List (String × String × ℚ)) :
    recvSum n (s :: l) = (if s.2.1 = n then s.2.2 else 0) + recvSum n l := by
  by_cases h : s.2.1 = n <;> simp [recvSum, List.filter_cons, h]

lemma amtOf_nonneg (n : String) (l : List (String × ℚ)) (h : ∀ p ∈ l, 0 ≤ p.2) :
    0 ≤ amtOf n l := by
  refine List.sum_nonneg ?_
  intro x hx
  obtain ⟨p, hp, rfl⟩ := List.mem_map.mp hx
  exact h p (List.mem_of_mem_filter hp)

lemma paySum_eq_zero (n : String) (l : List (String × String × ℚ))
    (h : ∀ s ∈ l, s.1 ≠ n) : paySum n l = 0 := by
  rw [paySum, List.filter_eq_nil_iff.mpr (fun s hs => by simpa using h s hs)]
  rfl

lemma recvSum_eq_zero (n : String) (l : List (String × String × ℚ))
    (h : ∀ s ∈ l, s.2.1 ≠ n) : recvSum n l = 0 := by
  rw [recvSum, List.filter_eq_nil_iff.mpr (fun s hs => by simpa using h s hs)]
  rfl

lemma mem_keys_unique (l : List (String × ℚ)) (h : (l.map Prod.fst).Nodup)
    (n : String) (a b : ℚ) (ha : (n, a) ∈ l) (hb : (n, b) ∈ l) : a = b := by
  induction l with
  | nil => cases ha
  | cons p t ih =>
    rw [List.map_cons] at h
    obtain ⟨hp, ht⟩ := List.nodup_cons.mp h
    rcases List.mem_cons.mp ha with rfl | ha'
    · rcases List.mem_cons.mp hb with hb' | hb'
      · exact ((by simpa using hb' : b = a)).symm
      · exact absurd (List.mem_map_of_mem Prod.fst hb') hp
    · rcases List.mem_cons.mp hb with rfl | hb'
      · exact absurd (List.mem_map_of_mem Prod.fst ha') hp
      · exact ih ht ha' hb'

lemma amtOf_of_mem_nodup (l : List (String × ℚ)) (h : (l.map Prod.fst).Nodup)
    (n : String) (w : ℚ) (hw : (n, w) ∈ l) : amtOf n l = w := by
  induction l with
  | nil => cases hw
  | cons p t ih =>
    rw [List.map_cons] at h
    obtain ⟨hp, ht⟩ := List.nodup_cons.mp h
    rcases List.mem_cons.mp hw with rfl | hw'
    · rw [amtOf_cons, if_pos rfl]
      have hz : amtOf n t = 0 := by
        rw [amtOf, List.filter_eq_nil_iff.mpr, List.map_nil, List.sum_nil]
        intro q hq
        simp only [decide_eq_true_eq]
        intro hqn
        apply hp
        rw [← hqn]
        exact List.mem_map.mpr ⟨q, hq, rfl⟩
      rw [hz, add_zero]
    · have hpn : p.1 ≠ n := by
        intro hpn
        apply hp
        rw [hpn]
        exact List.mem_map_of_mem Prod.fst hw'
      rw [amtOf_cons, ih ht hw', if_neg hpn, zero_add]

lemma settleLoopF_mem : ∀ (f : ℕ) (ds cs : List (String × ℚ))
    (s : String × String × ℚ), s ∈ settleLoopF f ds cs →
    s.1 ∈ ds.map Prod.fst ∧ s.2.1 ∈ cs.map Prod.fst ∧ 1/100 < s.2.2 := by
  intro f
  induction f with
  | zero => intro ds cs s hs; simp [settleLoopF] at hs
  | succ f ih =>
    intro ds cs s hs
    match ds, cs with
    | [], _ => simp [settleLoopF] at hs
    | _ :: _, [] => simp [settleLoopF] at hs
    | (dn, d) :: ds', (cn, c) :: cs' =>
      rw [settleLoopF] at hs
      by_cases h1 : d ≤ 1/100
      · rw [if_pos h1] at hs
        obtain ⟨hd, hc, ha⟩ := ih ds' ((cn, c) :: cs') s hs
        exact ⟨List.mem_cons_of_mem _ hd, hc, ha⟩
      · rw [if_neg h1] at hs
        by_cases h2 : c ≤ 1/100
        · rw [if_pos h2] at hs
          obtain ⟨hd, hc, ha⟩ := ih _ cs' s hs
          exact ⟨hd, List.mem_cons_of_mem _ hc, ha⟩
        · rw [if_neg h2] at hs
          rcases List.mem_cons.mp hs with rfl | hs'
          · exact ⟨List.mem_cons_self _ _, List.mem_cons_self _ _,
              lt_min (not_le.mp h1) (not_le.mp h2)⟩
          · obtain ⟨hd, hc, ha⟩ := ih _ _ s hs'
            exact ⟨by simpa using hd, by simpa using hc, ha⟩

lemma sug_setts_eq_loop (bals : List (String × ℚ)) :
    sug_setts bals = settleLoopF
      (2 * ((sortDesc (debtorsOf bals)).length + (sortDesc (credsOf bals)).length) + 1)
      (sortDesc (debtorsOf bals)) (sortDesc (credsOf bals)) := by
  simp only [sug_setts]
  exact List.filter_eq_self.mpr
    (fun s hs => by simpa using (settleLoopF_mem _ _ _ s hs).2.2)

lemma settleMeas_cons (dn : String) (d : ℚ) (ds' : List (String × ℚ))
    (cn : String) (c : ℚ) (cs' : List (String × ℚ)) :
    settleMeas ((dn, d) :: ds') ((cn, c) :: cs') =
      2 * (ds'.length + 1 + (cs'.length + 1)) +
        (if 1/100 < d ∧ 1/100 < c then 1 else 0) := by
  simp [settleMeas]

lemma settleMeas_le (ds cs : List (String × ℚ)) :
    settleMeas ds cs ≤ 2 * (ds.length + cs.length) + 1 := by
  rcases ds with _ | ⟨⟨dn, d⟩, ds'⟩
  · simp [settleMeas]
  · rcases cs with _ | ⟨⟨cn, c⟩, cs'⟩
    · simp [settleMeas]
    · rw [settleMeas_cons]
      split <;> simp [List.length_cons]

lemma settleLoopF_paySum_le : ∀ (f : ℕ) (ds cs : List (String × ℚ)),
    (ds.map Prod.fst).Nodup → (∀ p ∈ ds, 0 ≤ p.2) → ∀ n,
    paySum n (settleLoopF f ds cs) ≤ amtOf n ds := by
  intro f
  induction f with
  | zero =>
    intro ds cs hnd hnn n
    rw [show settleLoopF 0 ds cs = [] from rfl,
      paySum_eq_zero _ _ (by intro s hs; cases hs)]
    exact amtOf_nonneg n ds hnn
  | succ f ih =>
    intro ds cs hnd hnn n
    match ds, cs with
    | [], cs2 =>
      rw [show settleLoopF (f + 1) [] cs2 = [] from rfl,
        paySum_eq_zero _ _ (by intro s hs; cases hs)]
      simp [amtOf]
    | (dn, d) :: ds', [] =>
      rw [show settleLoopF (f + 1) ((dn, d) :: ds') [] = [] from rfl,
        paySum_eq_zero _ _ (by intro s hs; cases hs)]
      exact amtOf_nonneg n _ hnn
    | (dn, d) :: ds', (cn, c) :: cs' =>
      have hdk : dn ∉ ds'.map Prod.fst := by
        have := hnd
        rw [List.map_cons] at this
        exact (List.nodup_cons.mp this).1
      have hndt : (ds'.map Prod.fst).Nodup := by
        have := hnd
        rw [List.map_cons] at this
        exact (List.nodup_cons.mp this).2
      have hd0 : 0 ≤ d := hnn (dn, d) (List.mem_cons_self _ _)
      rw [settleLoopF]
      by_cases h1 : d ≤ 1/100
      · rw [if_pos h1]
        have hrec := ih ds' ((cn, c) :: cs') hndt
          (fun p hp => hnn p (List.mem_cons_of_mem _ hp)) n
        rw [amtOf_cons]
        have hif : (0 : ℚ) ≤ if (dn, d).1 = n then (dn, d).2 else 0 := by
          split
          · exact hd0
          · exact le_refl 0
        linarith
      · rw [if_neg h1]
        by_cases h2 : c ≤ 1/100
        · rw [if_pos h2]
          exact ih ((dn, d) :: ds') cs' hnd hnn n
        · rw [if_neg h2, paySum_cons]
          have hpayd : min d c ≤ d := min_le_left _ _
          have hnn2 : ∀ p ∈ (dn, d - min d c) :: ds', 0 ≤ p.2 := by
            intro p hp
            rcases List.mem_cons.mp hp with rfl | hp2
            · simpa using hpayd
            · exact hnn p (List.mem_cons_of_mem _ hp2)
          have hnd2 : (((dn, d - min d c) :: ds').map Prod.fst).Nodup := by
            rw [List.map_cons]
            exact List.nodup_cons.mpr ⟨hdk, hndt⟩
          have hrec := ih ((dn, d - min d c) :: ds') ((cn, c - min d c) :: cs')
            hnd2 hnn2 n
          rw [amtOf_cons] at hrec ⊢
          by_cases hdn : dn = n
          · rw [if_pos hdn] at hrec ⊢
            simp only at hrec ⊢
            rw [if_pos hdn]
            linarith
          · rw [if_neg hdn] at hrec ⊢
            simp only at hrec ⊢
            rw [if_neg hdn]
            linarith

lemma settleLoopF_recvSum_le : ∀ (f : ℕ) (ds cs : List (String × ℚ)),
    (cs.map Prod.fst).Nodup → (∀ p ∈ cs, 0 ≤ p.2) → ∀ n,
    recvSum n (settleLoopF f ds cs) ≤ amtOf n cs := by
  intro f
  induction f with
  | zero =>
    intro ds cs hnd hnn n
    rw [show settleLoopF 0 ds cs = [] from rfl,
      recvSum_eq_zero _ _ (by intro s hs; cases hs)]
    exact amtOf_nonneg n cs hnn
  | succ f ih =>
    intro ds cs hnd hnn n
    match ds, cs with
    | [], cs2 =>
      rw [show settleLoopF (f + 1) [] cs2 = [] from rfl,
        recvSum_eq_zero _ _ (by intro s hs; cases hs)]
      exact amtOf_nonneg n _ hnn
    | (dn, d) :: ds', [] =>
      rw [show settleLoopF (f + 1) ((dn, d) :: ds') [] = [] from rfl,
        recvSum_eq_zero _ _ (by intro s hs; cases hs)]
      simp [amtOf]
    | (dn, d) :: ds', (cn, c) :: cs' =>
      have hck : cn ∉ cs'.map Prod.fst := by
        have := hnd
        rw [List.map_cons] at this
        exact (List.nodup_cons.mp this).1
      have hnct : (cs'.map Prod.fst).Nodup := by
        have := hnd
        rw [List.map_cons] at this
        exact (List.nodup_cons.mp this).2
      have hc0 : 0 ≤ c := hnn (cn, c) (List.mem_cons_self _ _)
      rw [settleLoopF]
      by_cases h1 : d ≤ 1/100
      · rw [if_pos h1]
        exact ih ds' ((cn, c) :: cs') hnd hnn n
      · rw [if_neg h1]
        by_cases h2 : c ≤ 1/100
        · rw [if_pos h2]
          have hrec := ih ((dn, d) :: ds') cs' hnct
            (fun p hp => hnn p (List.mem_cons_of_mem _ hp)) n
          rw [amtOf_cons]
          have hif : (0 : ℚ) ≤ if (cn, c).1 = n then (cn, c).2 else 0 := by
            split
            · exact hc0
            · exact le_refl 0
          linarith
        · rw [if_neg h2, recvSum_cons]
          have hpayc : min d c ≤ c := min_le_right _ _
          have hnn2 : ∀ p ∈ (cn, c - min d c) :: cs', 0 ≤ p.2 := by
            intro p hp
            rcases List.mem_cons.mp hp with rfl | hp2
            · simpa using hpayc
            · exact hnn p (List.mem_cons_of_mem _ hp2)
          have hnc2 : (((cn, c - min d c) :: cs').map Prod.fst).Nodup := by
            rw [List.map_cons]
            exact List.nodup_cons.mpr ⟨hck, hnct⟩
          have hrec := ih ((dn, d - min d c) :: ds') ((cn, c - min d c) :: cs')
            hnc2 hnn2 n
          rw [amtOf_cons] at hrec ⊢
          by_cases hcn : cn = n
          · rw [if_pos hcn] at hrec ⊢
            simp only at hrec ⊢
            rw [if_pos hcn]
            linarith
          · rw [if_neg hcn] at hrec ⊢
            simp only at hrec ⊢
            rw [if_neg hcn]
            linarith

lemma settleLoopF_settled : ∀ (f : ℕ) (ds cs : List (String × ℚ)),
    settleMeas ds cs ≤ f →
    (ds.map Prod.fst).Nodup → (cs.map Prod.fst).Nodup →
    ((∀ p ∈ ds, p.2 - paySum p.1 (settleLoopF f ds cs) ≤ 1/100) ∨
      (∀ p ∈ cs, p.2 - recvSum p.1 (settleLoopF f ds cs) ≤ 1/100)) := by
  intro f
  induction f with
  | zero =>
    intro ds cs hm _ _
    left
    intro p hp
    have hlen : ds.length = 0 := by
      have h0 : 2 * (ds.length + cs.length) ≤ settleMeas ds cs :=
        Nat.le_add_right _ _
      omega
    rw [List.length_eq_zero] at hlen
    subst hlen
    cases hp
  | succ f ih =>
    intro ds cs hm hnd hnc
    match ds, cs with
    | [], cs2 =>
      left
      intro p hp
      cases hp
    | (dn, d) :: ds', [] =>
      right
      intro p hp
      cases hp
    | (dn, d) :: ds', (cn, c) :: cs' =>
      have hdk : dn ∉ ds'.map Prod.fst := by
        have h := hnd
        rw [List.map_cons] at h
        exact (List.nodup_cons.mp h).1
      have hndt : (ds'.map Prod.fst).Nodup := by
        have h := hnd
        rw [List.map_cons] at h
        exact (List.nodup_cons.mp h).2
      have hck : cn ∉ cs'.map Prod.fst := by
        have h := hnc
        rw [List.map_cons] at h
        exact (List.nodup_cons.mp h).1
      have hnct : (cs'.map Prod.fst).Nodup := by
        have h := hnc
        rw [List.map_cons] at h
        exact (List.nodup_cons.mp h).2
      rw [settleLoopF]
      by_cases h1 : d ≤ 1/100
      · rw [if_pos h1]
        have hm' : settleMeas ds' ((cn, c) :: cs') ≤ f := by
          have h0 := settleMeas_le ds' ((cn, c) :: cs')
          rw [settleMeas_cons,
            if_neg (by rintro ⟨hd, _⟩; exact absurd hd (not_lt.mpr h1))] at hm
          rw [List.length_cons] at h0
          omega
        rcases ih ds' ((cn, c) :: cs') hm' hndt hnc with hL | hR
        · left
          intro p hp
          rcases List.mem_cons.mp hp with rfl | hp'
          · have hz : paySum dn (settleLoopF f ds' ((cn, c) :: cs')) = 0 :=
              paySum_eq_zero _ _ (fun s hs hsn =>
                hdk (hsn ▸ (settleLoopF_mem f ds' ((cn, c) :: cs') s hs).1))
            show d - paySum dn (settleLoopF f ds' ((cn, c) :: cs')) ≤ 1/100
            rw [hz]
            linarith
          · exact hL p hp'
        · right
          exact hR
      · rw [if_neg h1]
        by_cases h2 : c ≤ 1/100
        · rw [if_pos h2]
          have hm' : settleMeas ((dn, d) :: ds') cs' ≤ f := by
            have h0 := settleMeas_le ((dn, d) :: ds') cs'
            rw [settleMeas_cons,
              if_neg (by rintro ⟨_, hc⟩; exact absurd hc (not_lt.mpr h2))] at hm
            rw [List.length_cons] at h0
            omega
          rcases ih ((dn, d) :: ds') cs' hm' hnd hnct with hL | hR
          · left
            exact hL
          · right
            intro p hp
            rcases List.mem_cons.mp hp with rfl | hp'
            · have hz : recvSum cn (settleLoopF f ((dn, d) :: ds') cs') = 0 :=
                recvSum_eq_zero _ _ (fun s hs hsn =>
                  hck (hsn ▸ (settleLoopF_mem f ((dn, d) :: ds') cs' s hs).2.1))
              show c - recvSum cn (settleLoopF f ((dn, d) :: ds') cs') ≤ 1/100
              rw [hz]
              linarith
            · exact hR p hp'
        · rw [if_neg h2]
          have hmin0 : ¬ (1/100 < d - min d c ∧ 1/100 < c - min d c) := by
            rintro ⟨ha, hb⟩
            rcases le_total d c with h | h
            · rw [min_eq_left h] at ha
              simp at ha
              linarith
            · rw [min_eq_right h] at hb
              simp at hb
              linarith
          have hm' : settleMeas ((dn, d - min d c) :: ds')
              ((cn, c - min d c) :: cs') ≤ f := by
            rw [settleMeas_cons, if_pos ⟨not_le.mp h1, not_le.mp h2⟩] at hm
            rw [settleMeas_cons, if_neg hmin0]
            omega
          have hnd2 : (((dn, d - min d c) :: ds').map Prod.fst).Nodup := by
            rw [List.map_cons]
            exact List.nodup_cons.mpr ⟨hdk, hndt⟩
          have hnc2 : (((cn, c - min d c) :: cs').map Prod.fst).Nodup := by
            rw [List.map_cons]
            exact List.nodup_cons.mpr ⟨hck, hnct⟩
          rcases ih ((dn, d - min d c) :: ds') ((cn, c - min d c) :: cs')
              hm' hnd2 hnc2 with hL | hR
          · left
            intro p hp
            rcases List.mem_cons.mp hp with rfl | hp'
            · have hrec := hL (dn, d - min d c) (List.mem_cons_self _ _)
              simp only at hrec
              show d - paySum dn ((dn, cn, min d c) ::
                settleLoopF f ((dn, d - min d c) :: ds') ((cn, c - min d c) :: cs')) ≤ 1/100
              rw [paySum_cons, if_pos rfl]
              linarith
            · have hp1 : ¬ ((dn, cn, min d c).1 = p.1) := by
                intro h
                apply hdk
                have hmem : p.1 ∈ ds'.map Prod.fst := List.mem_map.mpr ⟨p, hp', rfl⟩
                simpa [← h] using hmem
              have hrec := hL p (List.mem_cons_of_mem _ hp')
              rw [paySum_cons, if_neg hp1]
              linarith
          · right
            intro p hp
            rcases List.mem_cons.mp hp with rfl | hp'
            · have hrec := hR (cn, c - min d c) (List.mem_cons_self _ _)
              simp only at hrec
              show c - recvSum cn ((dn, cn, min d c) ::
                settleLoopF f ((dn, d - min d c) :: ds') ((cn, c - min d c) :: cs')) ≤ 1/100
              rw [recvSum_cons, if_pos rfl]
              linarith
            · have hp1 : ¬ ((dn, cn, min d c).2.1 = p.1) := by
                intro h
                apply hck
                have hmem : p.1 ∈ cs'.map Prod.fst := List.mem_map.mpr ⟨p, hp', rfl⟩
                simpa [← h] using hmem
              have hrec := hR p (List.mem_cons_of_mem _ hp')
              rw [recvSum_cons, if_neg hp1]
              linarith

lemma qAbs_nonneg (q : ℚ) : 0 ≤ qAbs q := by
  rw [qAbs]
  split
  · linarith
  · linarith [le_of_not_lt (by assumption : ¬ q < 0)]

lemma qAbs_of_neg (q : ℚ) (h : q < 0) : qAbs q = -q := by
  rw [qAbs, if_pos h]

lemma qAbs_of_nonneg (q : ℚ) (h : 0 ≤ q) : qAbs q = q := by
  rw [qAbs, if_neg (not_lt.mpr h)]

lemma ratFloor_le (q : ℚ) : (Rat.floor q : ℚ) ≤ q :=
  Rat.le_floor.mp (le_refl (Rat.floor q))

lemma lt_ratFloor_add_one (q : ℚ) : q < (Rat.floor q : ℚ) + 1 := by
  by_contra h
  push_neg at h
  have h2 : ((Rat.floor q + 1 : ℤ) : ℚ) ≤ q := by push_cast; linarith
  have := Rat.le_floor.mpr h2
  omega

lemma roundHE_bounds (x : ℚ) :
    x - 1/2 ≤ (roundHE x : ℚ) ∧ (roundHE x : ℚ) ≤ x + 1/2 := by
  have h1 := ratFloor_le x
  have h2 := lt_ratFloor_add_one x
  simp only [roundHE]
  split_ifs with ha hb hc
  · constructor <;> linarith
  · constructor <;> push_cast <;> linarith
  · have hx : x - (Rat.floor x : ℚ) = 1/2 := le_antisymm (not_lt.mp hb) (not_lt.mp ha)
    constructor <;> linarith
  · have hx : x - (Rat.floor x : ℚ) = 1/2 := le_antisymm (not_lt.mp hb) (not_lt.mp ha)
    constructor <;> push_cast <;> linarith

lemma rnd2_bounds (q : ℚ) : q - 1/200 ≤ rnd2 q ∧ rnd2 q ≤ q + 1/200 := by
  obtain ⟨h1, h2⟩ := roundHE_bounds (q * 100)
  rw [rnd2]
  constructor <;> linarith

lemma neg_of_kept_rnd2_neg (b : ℚ) (hk : 1/100 < qAbs b) (hr : rnd2 b < 0) :
    b < 0 := by
  by_contra h
  push_neg at h
  rw [qAbs_of_nonneg b h] at hk
  obtain ⟨h1, _⟩ := rnd2_bounds b
  linarith

lemma pos_of_kept_rnd2_pos (b : ℚ) (hk : 1/100 < qAbs b) (hr : 0 < rnd2 b) :
    0 < b := by
  by_contra h
  push_neg at h
  rw [qAbs_of_neg b (lt_of_le_of_ne h ?hne)] at hk
  · obtain ⟨_, h2⟩ := rnd2_bounds b
    linarith
  · intro hb0
    rw [hb0] at hr
    have : rnd2 0 = 0 := by
      rw [rnd2, roundHE]
      norm_num [Rat.floor_def']
    rw [this] at hr
    exact lt_irrefl 0 hr

lemma map_fst_rndpair (l : List (String × ℚ)) :
    (l.map (fun p => (p.1, rnd2 p.2))).map Prod.fst = l.map Prod.fst := by
  induction l with
  | nil => rfl
  | cons p t ih => simp [ih]

lemma map_fst_abspair (l : List (String × ℚ)) :
    (l.map (fun p => (p.1, qAbs p.2))).map Prod.fst = l.map Prod.fst := by
  induction l with
  | nil => rfl
  | cons p t ih => simp [ih]

lemma cleanBals_keys_sublist (bals : List (String × ℚ)) :
    ((cleanBals bals).map Prod.fst).Sublist (bals.map Prod.fst) := by
  rw [cleanBals_eq, map_fst_rndpair]
  exact (List.filter_sublist _).map _

lemma cleanBals_keys_nodup (bals : List (String × ℚ))
    (h : (bals.map Prod.fst).Nodup) : ((cleanBals bals).map Prod.fst).Nodup :=
  h.sublist (cleanBals_keys_sublist bals)

lemma debtorsOf_keys_nodup (bals : List (String × ℚ))
    (h : (bals.map Prod.fst).Nodup) : ((debtorsOf bals).map Prod.fst).Nodup := by
  rw [debtorsOf, map_fst_abspair]
  exact (cleanBals_keys_nodup bals h).sublist ((List.filter_sublist _).map _)

lemma credsOf_keys_nodup (bals : List (String × ℚ))
    (h : (bals.map Prod.fst).Nodup) : ((credsOf bals).map Prod.fst).Nodup := by
  rw [credsOf]
  exact (cleanBals_keys_nodup bals h).sublist ((List.filter_sublist _).map _)

lemma sortDesc_perm (l : List (String × ℚ)) : (sortDesc l).Perm l :=
  List.perm_insertionSort _ l

lemma sortDesc_keys_nodup (l : List (String × ℚ))
    (h : (l.map Prod.fst).Nodup) : ((sortDesc l).map Prod.fst).Nodup :=
  (((sortDesc_perm l).map Prod.fst).nodup_iff).mpr h

lemma amtOf_perm (n : String) (l1 l2 : List (String × ℚ)) (h : l1.Perm l2) :
    amtOf n l1 = amtOf n l2 := by
  rw [amtOf, amtOf]
  exact ((h.filter _).map _).sum_eq

lemma debtorsOf_vals_nonneg (bals : List (String × ℚ)) :
    ∀ p ∈ debtorsOf bals, 0 ≤ p.2 := by
  intro p hp
  rw [debtorsOf] at hp
  obtain ⟨q, _, rfl⟩ := List.mem_map.mp hp
  exact qAbs_nonneg q.2

lemma credsOf_vals_nonneg (bals : List (String × ℚ)) :
    ∀ p ∈ credsOf bals, 0 ≤ p.2 := by
  intro p hp
  rw [credsOf] at hp
  exact le_of_lt (by simpa using (List.mem_filter.mp hp).2)

lemma mem_cleanBals (bals : List (String × ℚ)) (n : String) (b : ℚ)
    (hb : (n, b) ∈ bals) (hk : 1/100 < qAbs b) : (n, rnd2 b) ∈ cleanBals bals := by
  rw [cleanBals_eq]
  exact List.mem_map.mpr ⟨(n, b), List.mem_filter.mpr ⟨hb, by simpa using hk⟩, rfl⟩

lemma mem_debtorsOf (bals : List (String × ℚ)) (n : String) (b : ℚ)
    (hb : (n, b) ∈ bals) (hk : 1/100 < qAbs b) (hneg : rnd2 b < 0) :
    (n, qAbs (rnd2 b)) ∈ debtorsOf bals := by
  rw [debtorsOf]
  exact List.mem_map.mpr ⟨(n, rnd2 b),
    List.mem_filter.mpr ⟨mem_cleanBals bals n b hb hk, by simpa using hneg⟩, rfl⟩

lemma mem_credsOf (bals : List (String × ℚ)) (n : String) (b : ℚ)
    (hb : (n, b) ∈ bals) (hk : 1/100 < qAbs b) (hpos : 0 < rnd2 b) :
    (n, rnd2 b) ∈ credsOf bals := by
  rw [credsOf]
  exact List.mem_filter.mpr ⟨mem_cleanBals bals n b hb hk, by simpa using hpos⟩

lemma of_mem_cleanBals (bals : List (String × ℚ)) (p : String × ℚ)
    (hp : p ∈ cleanBals bals) :
    ∃ b, (p.1, b) ∈ bals ∧ 1/100 < qAbs b ∧ p.2 = rnd2 b := by
  rw [cleanBals_eq] at hp
  obtain ⟨q, hq, rfl⟩ := List.mem_map.mp hp
  obtain ⟨hqb, hqc⟩ := List.mem_filter.mp hq
  exact ⟨q.2, by simpa using hqb, by simpa using hqc, rfl⟩

lemma of_mem_debtors_key (bals : List (String × ℚ)) (n : String)
    (hn : n ∈ (debtorsOf bals).map Prod.fst) :
    ∃ w, (n, w) ∈ cleanBals bals ∧ w < 0 ∧
      ∃ b, (n, b) ∈ bals ∧ 1/100 < qAbs b ∧ w = rnd2 b := by
  rw [debtorsOf, map_fst_abspair] at hn
  obtain ⟨p, hp, hfst⟩ := List.mem_map.mp hn
  obtain ⟨hpc, hpneg⟩ := List.mem_filter.mp hp
  obtain ⟨b, hb, hk, hval⟩ := of_mem_cleanBals bals p hpc
  subst hfst
  exact ⟨p.2, by simpa using hpc, by simpa using hpneg, b, hb, hk, hval⟩

lemma of_mem_creds_key (bals : List (String × ℚ)) (n : String)
    (hn : n ∈ (credsOf bals).map Prod.fst) :
    ∃ w, (n, w) ∈ cleanBals bals ∧ 0 < w ∧
      ∃ b, (n, b) ∈ bals ∧ 1/100 < qAbs b ∧ w = rnd2 b := by
  rw [credsOf] at hn
  obtain ⟨p, hp, hfst⟩ := List.mem_map.mp hn
  obtain ⟨hpc, hppos⟩ := List.mem_filter.mp hp
  obtain ⟨b, hb, hk, hval⟩ := of_mem_cleanBals bals p hpc
  subst hfst
  exact ⟨p.2, by simpa using hpc, by simpa using hppos, b, hb, hk, hval⟩

/-- C3 (amended): for every balance mapping, each debtor's emitted payments
sum to at most its rounded owed amount and each creditor's receipts sum to
at most its rounded credit; and at least one of the two sides is settled in
full, each of its members to within the 0.01 epsilon of its rounded amount.
Both sides need not be settled, even when the rounded balances sum to zero. -/
theorem C3_settlement_conservation (bals : List (String × ℚ))
    (hnd : (bals.map Prod.fst).Nodup) :
    (∀ p ∈ bals, 1/100 < qAbs p.2 → rnd2 p.2 < 0 →
        paySum p.1 (sug_setts bals) ≤ -(rnd2 p.2)) ∧
    (∀ p ∈ bals, 1/100 < qAbs p.2 → 0 < rnd2 p.2 →
        recvSum p.1 (sug_setts bals) ≤ rnd2 p.2) ∧
    ((∀ p ∈ bals, 1/100 < qAbs p.2 → rnd2 p.2 < 0 →
        -(rnd2 p.2) - paySum p.1 (sug_setts bals) ≤ 1/100) ∨
      (∀ p ∈ bals, 1/100 < qAbs p.2 → 0 < rnd2 p.2 →
        rnd2 p.2 - recvSum p.1 (sug_setts bals) ≤ 1/100)) := by
  rw [sug_setts_eq_loop]
  set sd := sortDesc (debtorsOf bals) with hsd
  set sc := sortDesc (credsOf bals) with hsc
  have hndD : (sd.map Prod.fst).Nodup :=
    sortDesc_keys_nodup _ (debtorsOf_keys_nodup bals hnd)
  have hndC : (sc.map Prod.fst).Nodup :=
    sortDesc_keys_nodup _ (credsOf_keys_nodup bals hnd)
  have hnnD : ∀ p ∈ sd, 0 ≤ p.2 :=
    fun p hp => debtorsOf_vals_nonneg bals p ((sortDesc_perm _).mem_iff.mp hp)
  have hnnC : ∀ p ∈ sc, 0 ≤ p.2 :=
    fun p hp => credsOf_vals_nonneg bals p ((sortDesc_perm _).mem_iff.mp hp)
  have hamtD : ∀ p ∈ bals, 1/100 < qAbs p.2 → rnd2 p.2 < 0 →
      amtOf p.1 sd = -(rnd2 p.2) := by
    intro p hp hk hneg
    obtain ⟨n, b⟩ := p
    simp only at hk hneg ⊢
    rw [amtOf_perm _ _ _ (sortDesc_perm _),
      amtOf_of_mem_nodup _ (debtorsOf_keys_nodup bals hnd) n (qAbs (rnd2 b))
        (mem_debtorsOf bals n b hp hk hneg),
      qAbs_of_neg _ hneg]
  have hamtC : ∀ p ∈ bals, 1/100 < qAbs p.2 → 0 < rnd2 p.2 →
      amtOf p.1 sc = rnd2 p.2 := by
    intro p hp hk hpos
    obtain ⟨n, b⟩ := p
    simp only at hk hpos ⊢
    rw [amtOf_perm _ _ _ (sortDesc_perm _),
      amtOf_of_mem_nodup _ (credsOf_keys_nodup bals hnd) n (rnd2 b)
        (mem_credsOf bals n b hp hk hpos)]
  refine ⟨?_, ?_, ?_⟩
  · intro p hp hk hneg
    have hle := settleLoopF_paySum_le (2 * (sd.length + sc.length) + 1) sd sc
      hndD hnnD p.1
    rw [hamtD p hp hk hneg] at hle
    exact hle
  · intro p hp hk hpos
    have hle := settleLoopF_recvSum_le (2 * (sd.length + sc.length) + 1) sd sc
      hndC hnnC p.1
    rw [hamtC p hp hk hpos] at hle
    exact hle
  · rcases settleLoopF_settled (2 * (sd.length + sc.length) + 1) sd sc
      (settleMeas_le sd sc) hndD hndC with hL | hR
    · left
      intro p hp hk hneg
      obtain ⟨n, b⟩ := p
      simp only at hk hneg ⊢
      have hmem : (n, qAbs (rnd2 b)) ∈ sd :=
        (sortDesc_perm _).mem_iff.mpr (mem_debtorsOf bals n b hp hk hneg)
      have hres := hL (n, qAbs (rnd2 b)) hmem
      simp only at hres
      rw [qAbs_of_neg _ hneg] at hres
      exact hres
    · right
      intro p hp hk hpos
      obtain ⟨n, b⟩ := p
      simp only at hk hpos ⊢
      have hmem : (n, rnd2 b) ∈ sc :=
        (sortDesc_perm _).mem_iff.mpr (mem_credsOf bals n b hp hk hpos)
      have hres := hR (n, rnd2 b) hmem
      simp only at hres
      exact hres

/-- C10: for every balance mapping without repeated names, every emitted
settlement pays a strictly positive amount above the 0.01 epsilon from a
member who had a negative balance in the input mapping to a DIFFERENT
member who had a positive balance there. -/
theorem C10_settlement_wellformed (bals : List (String × ℚ))
    (hnd : (bals.map Prod.fst).Nodup) :
    ∀ s ∈ sug_setts bals,
      s.1 ≠ s.2.1 ∧ (∃ b, (s.1, b) ∈ bals ∧ b < 0) ∧
      (∃ b, (s.2.1, b) ∈ bals ∧ 0 < b) ∧ 1/100 < s.2.2 := by
  rw [sug_setts_eq_loop]
  intro s hs
  obtain ⟨hd, hc, ha⟩ := settleLoopF_mem _ _ _ s hs
  have hd' : s.1 ∈ (debtorsOf bals).map Prod.fst :=
    ((sortDesc_perm (debtorsOf bals)).map Prod.fst).mem_iff.mp hd
  have hc' : s.2.1 ∈ (credsOf bals).map Prod.fst :=
    ((sortDesc_perm (credsOf bals)).map Prod.fst).mem_iff.mp hc
  obtain ⟨w, hwc, hwneg, b, hb, hkb, hwb⟩ := of_mem_debtors_key bals s.1 hd'
  obtain ⟨w', hwc', hwpos, b', hb', hkb', hwb'⟩ := of_mem_creds_key bals s.2.1 hc'
  refine ⟨?_, ⟨b, hb, ?_⟩, ⟨b', hb', ?_⟩, ha⟩
  · intro heq
    rw [heq] at hwc
    have hww := mem_keys_unique (cleanBals bals) (cleanBals_keys_nodup bals hnd)
      s.2.1 w w' hwc hwc'
    rw [hww] at hwneg
    linarith
  · exact neg_of_kept_rnd2_neg b hkb (hwb ▸ hwneg)
  · exact pos_of_kept_rnd2_pos b' hkb' (hwb' ▸ hwpos)

set_option maxHeartbeats 2000000 in
/-- C3 (counterexample): the planner does NOT zero out every debtor and
creditor within 0.01 for every balance mapping. First, with the single
debtor a owing 5 there is no creditor, no payment is emitted, and a's
residual is 5. Second, even when the rounded balances sum to zero
(two debtors of 0.05 against creditors of 0.04, 0.04 and 0.02), the loop
skips each debtor once its remainder falls to 0.01, so creditor C3
receives nothing and stays short by 0.02 > 0.01. -/
theorem C3_conservation_cex :
    sug_setts [("a", (-5 : ℚ))] = [] ∧
    ¬ qAbs (-(rnd2 (-5 : ℚ)) - paySum "a" (sug_setts [("a", (-5 : ℚ))])) ≤ 1/100 ∧
    sug_setts [("D1", (-5 : ℚ)/100), ("D2", -5/100),
        ("C1", 4/100), ("C2", 4/100), ("C3", 2/100)] =
      [("D1", "C1", 1/25), ("D2", "C2", 1/25)] ∧
    ([(-5 : ℚ)/100, -5/100, 4/100, 4/100, 2/100].map rnd2).sum = 0 ∧
    ¬ qAbs (rnd2 ((2 : ℚ)/100) - recvSum "C3"
        (sug_setts [("D1", (-5 : ℚ)/100), ("D2", -5/100),
          ("C1", 4/100), ("C2", 4/100), ("C3", 2/100)])) ≤ 1/100 := by
  have h1 : sug_setts [("a", (-5 : ℚ))] = [] := by
    norm_num [sug_setts, debtorsOf, credsOf, cleanBals, qAbs, rnd2, roundHE,
      Rat.floor_def', sortDesc, List.insertionSort, List.orderedInsert, settleLoopF]
  have hc : cleanBals [("D1", (-5 : ℚ)/100), ("D2", -5/100),
      ("C1", 4/100), ("C2", 4/100), ("C3", 2/100)] =
      [("D1", -(1/20)), ("D2", -(1/20)), ("C1", 1/25), ("C2", 1/25), ("C3", 1/50)] := by
    norm_num [cleanBals, qAbs, rnd2, roundHE, Rat.floor_def']
  have hd : debtorsOf [("D1", (-5 : ℚ)/100), ("D2", -5/100),
      ("C1", 4/100), ("C2", 4/100), ("C3", 2/100)] =
      [("D1", 1/20), ("D2", 1/20)] := by
    rw [debtorsOf, hc]
    norm_num [qAbs]
  have hcr : credsOf [("D1", (-5 : ℚ)/100), ("D2", -5/100),
      ("C1", 4/100), ("C2", 4/100), ("C3", 2/100)] =
      [("C1", 1/25), ("C2", 1/25), ("C3", 1/50)] := by
    rw [credsOf, hc]
    norm_num
  have hsd : sortDesc [("D1", (1 : ℚ)/20), ("D2", 1/20)] =
      [("D1", 1/20), ("D2", 1/20)] := by
    norm_num [sortDesc, List.insertionSort, List.orderedInsert]
  have hsc : sortDesc [("C1", (1 : ℚ)/25), ("C2", 1/25), ("C3", 1/50)] =
      [("C1", 1/25), ("C2", 1/25), ("C3", 1/50)] := by
    norm_num [sortDesc, List.insertionSort, List.orderedInsert]
  have h2 : sug_setts [("D1", (-5 : ℚ)/100), ("D2", -5/100),
      ("C1", 4/100), ("C2", 4/100), ("C3", 2/100)] =
      [("D1", "C1", 1/25), ("D2", "C2", 1/25)] := by
    simp only [sug_setts]
    rw [hd, hcr, hsd, hsc]
    norm_num [settleLoopF, min_def]
  refine ⟨h1, ?_, h2, ?_, ?_⟩
  · rw [h1]
    norm_num [paySum, qAbs, rnd2, roundHE, Rat.floor_def']
  · norm_num [rnd2, roundHE, Rat.floor_def']
  · have h3 : recvSum "C3" [("D1", "C1", (1 : ℚ)/25), ("D2", "C2", 1/25)] = 0 := by
      rw [recvSum_cons, recvSum_cons, if_neg (by decide), if_neg (by decide)]
      norm_num [recvSum]
    rw [h2, h3]
    norm_num [qAbs, rnd2, roundHE, Rat.floor_def']

/-- C3 (witness): the amended conservation statement instantiated at the
two-member mapping where a owes 5 to b. -/
theorem C3_settlement_conservation_witness :
    paySum "a" (sug_setts [("a", (-5 : ℚ)), ("b", 5)]) ≤ -(rnd2 (-5 : ℚ)) :=
  (C3_settlement_conservation [("a", (-5 : ℚ)), ("b", 5)] (by decide)).1
    ("a", (-5 : ℚ)) (List.mem_cons_self _ _)
    (by norm_num [qAbs])
    (by norm_num [rnd2, roundHE, Rat.floor_def'])

/-- C10 (witness): the well-formedness statement instantiated at the
two-member mapping where a owes 5 to b, whose plan is the single payment
(a, b, 5). -/
theorem C10_settlement_wellformed_witness :
    ("a" ≠ "b" ∧ (∃ b, ("a", b) ∈ [("a", (-5 : ℚ)), ("b", 5)] ∧ b < 0) ∧
      (∃ b, ("b", b) ∈ [("a", (-5 : ℚ)), ("b", 5)] ∧ 0 < b) ∧ (1 : ℚ)/100 < 5) := by
  have hmem : ("a", "b", (5 : ℚ)) ∈ sug_setts [("a", (-5 : ℚ)), ("b", 5)] := by
    rw [show sug_setts [("a", (-5 : ℚ)), ("b", 5)] = [("a", "b", 5)] from by
      norm_num [sug_setts, debtorsOf, credsOf, cleanBals, qAbs, rnd2, roundHE,
        Rat.floor_def', sortDesc, List.insertionSort, List.orderedInsert, settleLoopF]]
    exact List.mem_singleton.mpr rfl
  exact C10_settlement_wellformed [("a", (-5 : ℚ)), ("b", 5)] (by decide)
    ("a", "b", 5) hmem

end PaySplitter
